import Mathlib

/-!
Verification of the noise-correlation pipeline of `noise_correlations.py`
(functions `get_firing_rate`, `cross_correlate`, and the cross-correlation
driver inside `FunctionalConnectivity.noise_corr`).

Modelling conventions:
* Spike timestamps, bin sizes and signal entries are exact rationals `ℚ`
  (idealising IEEE doubles).
* `np.round` is rounding half to even (`roundHalfEven`).
* NumPy fancy-index assignment `arr[idxs] += 1` on a fresh zero array is
  `fancyIncrementZeros`: it wraps negative indices from the end of the
  array, raises `IndexError` (modelled as `none`) when an index is out of
  `[-n, n)`, and applies a single `+1` per distinct resolved index because
  the buffered increment collapses duplicates.
* The uniform random jitter draws are modelled by an explicit
  `jitter_offsets` parameter: one list of per-spike offsets per shuffle
  replicate, so `shuffle_n = jitter_offsets.length`.
* A Python exception is `none`; a normal return is `some`.
-/

namespace NoiseCorrelations

/-- Mean of a list, `l.sum / l.length` (NumPy `.mean()`; `0/0 = 0` for the
empty list, which never occurs in the guarded uses below). -/
def listMean (l : List ℚ) : ℚ := l.sum / l.length

/-- Elementwise product followed by sum: `np.sum(u * v)` for equal-length
vectors. -/
def dotL (u v : List ℚ) : ℚ := (List.zipWith (fun a b => a * b) u v).sum

/-- A list is constant: all of its entries are equal. -/
def constantL (l : List ℚ) : Prop := ∀ a ∈ l, ∀ b ∈ l, a = b

instance (l : List ℚ) : Decidable (constantL l) := by
  unfold constantL; infer_instance

/-- `np.round`: round half to even (banker's rounding). -/
def roundHalfEven (q : ℚ) : ℤ :=
  let f := ⌊q⌋
  if q - f < 1/2 then f
  else if q - f > 1/2 then f + 1
  else if f % 2 = 0 then f else f + 1

/-- Bin index of a spike timestamp: `np.round(t / bin_size)` from
`get_firing_rate`. -/
def binIdx (bin_size t : ℚ) : ℤ := roundHalfEven (t / bin_size)

/-- `int(np.ceil((tracking_stop - tracking_start)/bin_size))`, the length of
`fr_arr` in `get_firing_rate`. -/
def numBins (tracking_start tracking_stop bin_size : ℚ) : ℕ :=
  (⌈(tracking_stop - tracking_start) / bin_size⌉).toNat

/-- NumPy index resolution on an axis of length `n`: indices in `[0, n)` are
used as is, indices in `[-n, 0)` are counted from the end, anything else
raises `IndexError`. -/
def wrapIdx (n : ℕ) (i : ℤ) : Option ℕ :=
  if 0 ≤ i ∧ i < (n : ℤ) then some i.toNat
  else if -(n : ℤ) ≤ i ∧ i < 0 then some ((n : ℤ) + i).toNat
  else none

/-- Resolve a whole index vector; fails as soon as one index is out of
bounds. -/
def wrapAll (n : ℕ) : List ℤ → Option (List ℕ)
  | [] => some []
  | i :: is =>
    match wrapIdx n i, wrapAll n is with
    | some w, some ws => some (w :: ws)
    | _, _ => none

/-- `arr[idxs] += 1` on `arr = np.zeros(n)`: the buffered fancy-index
increment puts a `1` in every bin hit by at least one index (duplicates
collapse to a single increment) and leaves the rest at `0`. -/
def fancyIncrementZeros (n : ℕ) (idxs : List ℤ) : Option (List ℚ) :=
  (wrapAll n idxs).map fun ws =>
    (List.range n).map fun j => if j ∈ ws then (1 : ℚ) else 0

/-- The pair returned by `get_firing_rate`: the real rate signal `fr_arr`
and the jitter ensemble `jitter_arr` (list of replicate rows). -/
structure FRResult where
  fr_arr : List ℚ
  jitter_arr : List (List ℚ)
deriving DecidableEq

/-- One iteration of the jitter loop: perturb every spike by its offset,
keep only perturbed spikes `≤ tracking_stop` (no lower bound), and bin. -/
def jitterRow (n : ℕ) (bin_size tracking_stop : ℚ)
    (cl_activity offsets : List ℚ) : Option (List ℚ) :=
  let jitter_spikes :=
    (List.zipWith (fun t d => t + d) cl_activity offsets).filter
      fun t => t ≤ tracking_stop
  fancyIncrementZeros n (jitter_spikes.map (binIdx bin_size))

/-- All `shuffle_n` iterations of the jitter loop; an `IndexError` in any
iteration aborts the whole call. -/
def jitterRows (n : ℕ) (bin_size tracking_stop : ℚ) (cl_activity : List ℚ) :
    List (List ℚ) → Option (List (List ℚ))
  | [] => some []
  | offs :: rest =>
    match jitterRow n bin_size tracking_stop cl_activity offs,
          jitterRows n bin_size tracking_stop cl_activity rest with
    | some r, some rs => some (r :: rs)
    | _, _ => none

/-- `get_firing_rate(cl_activity, bin_size, tracking_start, tracking_stop,
to_jitter, jitter_size, shuffle_n)`.  The random jitter draws are the
explicit `jitter_offsets` rows (`shuffle_n = jitter_offsets.length`).
With `to_jitter` the real signal is binned inside the `sh == 0` iteration,
so with zero replicates `fr_arr` stays the allocated zeros; without jitter
the function still allocates and returns the all-zero
`shuffle_n × numBins` array `jitter_arr`. -/
def get_firing_rate (cl_activity : List ℚ)
    (bin_size tracking_start tracking_stop : ℚ)
    (to_jitter : Bool) (jitter_offsets : List (List ℚ)) : Option FRResult :=
  let n := numBins tracking_start tracking_stop bin_size
  if to_jitter then
    match jitter_offsets with
    | [] => some ⟨List.replicate n 0, []⟩
    | _ :: _ =>
      match fancyIncrementZeros n (cl_activity.map (binIdx bin_size)),
            jitterRows n bin_size tracking_stop cl_activity jitter_offsets with
      | some fr, some rows => some ⟨fr, rows⟩
      | _, _ => none
  else
    match fancyIncrementZeros n (cl_activity.map (binIdx bin_size)) with
    | some fr =>
      some ⟨fr, List.replicate jitter_offsets.length (List.replicate n 0)⟩
    | none => none

/-!
Embedding of `cross_correlate` and the cross-correlation driver in
`FunctionalConnectivity.noise_corr`.  The Python function returns, per lag,
the IEEE quotient `r_num / r_den` with `r_den = sqrt(sx * sy)`; NumPy
evaluates `0/0` to `NaN` without raising.  Each entry of the model is
`none` when the radicand `sx * sy` is `0` (the NaN case — numerator is
then also `0`), and otherwise `some (r_num, sx * sy)`, the exact numerator
and squared denominator of the coefficient `r_num / sqrt(sx * sy)`.
Totality of the functions models that no exception is raised.
-/

/-- `cross_correlate(big_x, big_x_mean, small_y, small_y_mean)`: for each
row of `big_x` paired with its entry of `big_x_mean`, the Pearson numerator
`r_num = Σ (x-x̄)(y-ȳ)` and squared denominator `Σ(x-x̄)² * Σ(y-ȳ)²`. -/
def cross_correlate (big_x : List (List ℚ)) (big_x_mean : List ℚ)
    (small_y : List ℚ) (small_y_mean : ℚ) : List (Option (ℚ × ℚ)) :=
  (big_x.zip big_x_mean).map fun rm =>
    let xc := rm.1.map fun v => v - rm.2
    let yc := small_y.map fun v => v - small_y_mean
    let num := dotL xc yc
    let den2 := dotL xc xc * dotL yc yc
    if den2 = 0 then none else some (num, den2)

/-- `all_bins = np.arange(-bin_num, bin_num+1, 1)`. -/
def allLags (bin_num : ℕ) : List ℤ :=
  (List.range (2 * bin_num + 1)).map fun i => (Int.ofNat i) - (bin_num : ℤ)

/-- `fr1[start_x:end_x]` with `start_x = bin_num + one_bin` and
`end_x = fr1_shape - bin_num + one_bin`: the lagged slice of the signal,
of length `fr1_shape - 2*bin_num` whenever `2*bin_num < fr1.length` and
`|one_bin| ≤ bin_num`. -/
def lagSlice (fr : List ℚ) (bin_num : ℕ) (one_bin : ℤ) : List ℚ :=
  (fr.drop ((bin_num : ℤ) + one_bin).toNat).take (fr.length - 2 * bin_num)

/-- `fr2[y_start:y_end]` with `y_start = bin_num`, `y_end = length - bin_num`:
the fixed center slice of the reference signal. -/
def centerSlice (fr : List ℚ) (bin_num : ℕ) : List ℚ :=
  (fr.drop bin_num).take (fr.length - 2 * bin_num)

/-- The matrix `big_x`: one lagged slice of `fr1` per lag in `all_bins`. -/
def bigX (fr1 : List ℚ) (bin_num : ℕ) : List (List ℚ) :=
  (allLags bin_num).map (lagSlice fr1 bin_num)

/-- `big_x.mean(axis=1)`. -/
def rowMeans (X : List (List ℚ)) : List ℚ := X.map listMean

/-- The no-jitter correlation call in `noise_corr`:
`cross_correlate(big_x, big_x.mean(axis=1), y, y.mean())` with `big_x`
holding the lagged slices of `fr1` and `y` the center slice of `fr2`. -/
def noise_corr_data (fr1 fr2 : List ℚ) (bin_num : ℕ) : List (Option (ℚ × ℚ)) :=
  cross_correlate (bigX fr1 bin_num) (rowMeans (bigX fr1 bin_num))
    (centerSlice fr2 bin_num) (listMean (centerSlice fr2 bin_num))

/-- Pearson numerator of two centered slices (shorthand used to state the
per-lag value of `cross_correlate`). -/
def pearsonNum (x y : List ℚ) : ℚ :=
  dotL (x.map fun v => v - listMean x) (y.map fun v => v - listMean y)

/-- Squared Pearson denominator of two centered slices. -/
def pearsonDenSq (x y : List ℚ) : ℚ :=
  dotL (x.map fun v => v - listMean x) (x.map fun v => v - listMean x) *
    dotL (y.map fun v => v - listMean y) (y.map fun v => v - listMean y)

/-- The per-lag entry produced by `cross_correlate` when the row mean is the
actual mean of the row. -/
def lagEntry (x y : List ℚ) : Option (ℚ × ℚ) :=
  if pearsonDenSq x y = 0 then none else some (pearsonNum x y, pearsonDenSq x y)

end NoiseCorrelations

namespace NoiseCorrelations

section Lemmas

attribute [local semireducible] Rat.add Rat.mul Rat.sub Rat.inv

/-- Resolving an index vector that lies entirely in `[0, n)` succeeds and
is plain `Int.toNat`. -/
theorem wrapAll_of_inRange (n : ℕ) :
    ∀ idxs : List ℤ, (∀ i ∈ idxs, 0 ≤ i ∧ i < (n : ℤ)) →
      wrapAll n idxs = some (idxs.map Int.toNat)
  | [], _ => rfl
  | i :: is, h => by
    have hi := h i (List.mem_cons_self i is)
    have hrec := wrapAll_of_inRange n is fun j hj => h j (List.mem_cons_of_mem i hj)
    unfold wrapAll
    rw [hrec]
    unfold wrapIdx
    rw [if_pos hi]
    rfl

/-- Successful fancy increment: the index vector resolved and the result is
the indicator vector of the resolved indices. -/
theorem fancyIncrementZeros_some {n : ℕ} {idxs : List ℤ} {fr : List ℚ}
    (h : fancyIncrementZeros n idxs = some fr) :
    ∃ ws, wrapAll n idxs = some ws ∧
      fr = (List.range n).map fun j => if j ∈ ws then (1 : ℚ) else 0 := by
  unfold fancyIncrementZeros at h
  cases hw : wrapAll n idxs with
  | none => rw [hw] at h; exact absurd h (by simp)
  | some ws =>
    rw [hw] at h
    simp only [Option.map] at h
    exact ⟨ws, rfl, (Option.some_injective _ h).symm⟩

/-- The rate signal produced by a successful fancy increment has exactly
`n` bins. -/
theorem fancyIncrementZeros_length {n : ℕ} {idxs : List ℤ} {fr : List ℚ}
    (h : fancyIncrementZeros n idxs = some fr) : fr.length = n := by
  obtain ⟨ws, -, rfl⟩ := fancyIncrementZeros_some h
  simp

/-- Every bin of a successful fancy increment holds `0` or `1`. -/
theorem fancyIncrementZeros_mem {n : ℕ} {idxs : List ℤ} {fr : List ℚ}
    (h : fancyIncrementZeros n idxs = some fr) :
    ∀ x ∈ fr, x = 0 ∨ x = 1 := by
  obtain ⟨ws, -, rfl⟩ := fancyIncrementZeros_some h
  intro x hx
  obtain ⟨j, -, rfl⟩ := List.mem_map.1 hx
  by_cases hj : j ∈ ws
  · right; simp [hj]
  · left; simp [hj]

/-- Every row produced by the jitter loop comes from one `jitterRow` call. -/
theorem jitterRows_some {n : ℕ} {bs ts : ℚ} {act : List ℚ} :
    ∀ {offsL : List (List ℚ)} {rows : List (List ℚ)},
      jitterRows n bs ts act offsL = some rows →
      ∀ r ∈ rows, ∃ offs, jitterRow n bs ts act offs = some r := by
  intro offsL
  induction offsL with
  | nil =>
    intro rows h
    unfold jitterRows at h
    obtain rfl := Option.some_injective _ h
    intro r hr
    exact absurd hr (List.not_mem_nil r)
  | cons o rest ih =>
    intro rows h
    unfold jitterRows at h
    cases h1 : jitterRow n bs ts act o with
    | none => rw [h1] at h; exact absurd h (by simp)
    | some r0 =>
      cases h2 : jitterRows n bs ts act rest with
      | none => rw [h1, h2] at h; exact absurd h (by simp)
      | some rs =>
        rw [h1, h2] at h
        obtain rfl := Option.some_injective _ h
        intro r hr
        rcases List.mem_cons.1 hr with rfl | hr
        · exact ⟨o, h1⟩
        · exact ih h2 r hr

/-- Inversion of `get_firing_rate` with `to_jitter = false`: the real
signal comes from one fancy increment over the unjittered spikes, and the
returned ensemble is the untouched `shuffle_n × n` zero allocation. -/
theorem get_firing_rate_false_inv {spikes : List ℚ} {bin st sp : ℚ}
    {offs : List (List ℚ)} {res : FRResult}
    (h : get_firing_rate spikes bin st sp false offs = some res) :
    fancyIncrementZeros (numBins st sp bin) (spikes.map (binIdx bin)) =
        some res.fr_arr ∧
      res.jitter_arr =
        List.replicate offs.length (List.replicate (numBins st sp bin) 0) := by
  unfold get_firing_rate at h
  simp only [Bool.false_eq_true, if_false] at h
  cases hf : fancyIncrementZeros (numBins st sp bin) (spikes.map (binIdx bin)) with
  | none => rw [hf] at h; exact absurd h (by simp)
  | some fr =>
    rw [hf] at h
    obtain rfl := Option.some_injective _ h
    exact ⟨rfl, rfl⟩

/-- Inversion of `get_firing_rate` with `to_jitter = true` and at least one
replicate: the real signal comes from the unjittered spikes and the
ensemble from the jitter loop. -/
theorem get_firing_rate_true_inv {spikes : List ℚ} {bin st sp : ℚ}
    {o : List ℚ} {rest : List (List ℚ)} {res : FRResult}
    (h : get_firing_rate spikes bin st sp true (o :: rest) = some res) :
    fancyIncrementZeros (numBins st sp bin) (spikes.map (binIdx bin)) =
        some res.fr_arr ∧
      jitterRows (numBins st sp bin) bin sp spikes (o :: rest) =
        some res.jitter_arr := by
  unfold get_firing_rate at h
  simp only [if_true] at h
  cases hf : fancyIncrementZeros (numBins st sp bin) (spikes.map (binIdx bin)) with
  | none => rw [hf] at h; exact absurd h (by simp)
  | some fr =>
    cases hj : jitterRows (numBins st sp bin) bin sp spikes (o :: rest) with
    | none => rw [hf, hj] at h; exact absurd h (by simp)
    | some rows =>
      rw [hf, hj] at h
      obtain rfl := Option.some_injective _ h
      exact ⟨rfl, rfl⟩

/-- Sum of an indicator image: counts the elements satisfying the
predicate. -/
theorem sum_map_ite (p : ℕ → Prop) [DecidablePred p] :
    ∀ L : List ℕ,
      ((L.map fun j => if p j then (1 : ℚ) else 0)).sum =
        ((L.filter fun j => decide (p j)).length : ℚ)
  | [] => by simp
  | j :: L => by
    have hrec := sum_map_ite p L
    by_cases hj : p j <;>
      simp [List.filter_cons, hj, hrec] <;> push_cast <;> ring

/-- Counting the members of `l` inside `range n` gives the number of
distinct elements of `l`, provided `l` lives below `n`. -/
theorem length_filter_range_mem {l : List ℕ} {n : ℕ} (h : ∀ x ∈ l, x < n) :
    ((List.range n).filter fun j => decide (j ∈ l)).length = l.dedup.length := by
  have h1 : ((List.range n).filter fun j => decide (j ∈ l)).Nodup :=
    (List.nodup_range n).filter _
  have h2 : ((List.range n).filter fun j => decide (j ∈ l)).toFinset =
      l.toFinset := by
    ext x
    simp only [List.mem_toFinset, List.mem_filter, List.mem_range,
      decide_eq_true_eq]
    exact ⟨fun hx => hx.2, fun hx => ⟨h x hx, hx⟩⟩
  calc ((List.range n).filter fun j => decide (j ∈ l)).length
      = ((List.range n).filter fun j => decide (j ∈ l)).toFinset.card :=
        (List.toFinset_card_of_nodup h1).symm
    _ = l.toFinset.card := by rw [h2]
    _ = l.dedup.length := List.card_toFinset l

/-- A successful jitter-loop row has exactly `n` bins and 0/1 entries. -/
theorem jitterRow_shape {n : ℕ} {bs ts : ℚ} {act offs : List ℚ} {r : List ℚ}
    (h : jitterRow n bs ts act offs = some r) :
    r.length = n ∧ ∀ x ∈ r, x = 0 ∨ x = 1 := by
  unfold jitterRow at h
  exact ⟨fancyIncrementZeros_length h, fancyIncrementZeros_mem h⟩

/-- Claim C6: for every spike train and valid `bin_size`, window bounds,
whenever `get_firing_rate` returns, the real rate signal has exactly
`⌈(windowEnd - windowStart)/bin_size⌉` bins and every jitter-ensemble
replicate row has that same length. -/
theorem claim_C6 (spikes : List ℚ) (bin st sp : ℚ) (tj : Bool)
    (offs : List (List ℚ)) (res : FRResult)
    (hbin : 0 < bin) (hw : st ≤ sp)
    (h : get_firing_rate spikes bin st sp tj offs = some res) :
    (res.fr_arr.length : ℤ) = ⌈(sp - st) / bin⌉ ∧
      ∀ row ∈ res.jitter_arr, row.length = res.fr_arr.length := by
  have hcast : ((numBins st sp bin : ℕ) : ℤ) = ⌈(sp - st) / bin⌉ := by
    unfold numBins
    exact Int.toNat_of_nonneg
      (Int.ceil_nonneg (div_nonneg (by linarith) hbin.le))
  have hlen : res.fr_arr.length = numBins st sp bin ∧
      ∀ row ∈ res.jitter_arr, row.length = numBins st sp bin := by
    cases tj with
    | false =>
      obtain ⟨hf, hj⟩ := get_firing_rate_false_inv h
      refine ⟨fancyIncrementZeros_length hf, ?_⟩
      intro row hrow
      rw [hj] at hrow
      rw [List.eq_of_mem_replicate hrow]
      exact List.length_replicate _ _
    | true =>
      cases offs with
      | nil =>
        unfold get_firing_rate at h
        simp only [if_true] at h
        obtain rfl := (Option.some_injective _ h).symm
        refine ⟨List.length_replicate _ _, ?_⟩
        intro row hrow
        exact absurd hrow (List.not_mem_nil row)
      | cons o rest =>
        obtain ⟨hf, hj⟩ := get_firing_rate_true_inv h
        refine ⟨fancyIncrementZeros_length hf, ?_⟩
        intro row hrow
        obtain ⟨os, hos⟩ := jitterRows_some hj row hrow
        exact (jitterRow_shape hos).1
  refine ⟨by rw [hlen.1]; exact hcast, ?_⟩
  intro row hrow
  rw [hlen.1]
  exact hlen.2 row hrow

/-- Witness for C6 at a concrete input. -/
theorem claim_C6_witness :
    ((FRResult.mk [1, 0] [[0, 0]]).fr_arr.length : ℤ) = ⌈((1 : ℚ) - 0) / (1/2)⌉ ∧
      ∀ row ∈ (FRResult.mk [1, 0] [[0, 0]]).jitter_arr,
        row.length = (FRResult.mk [1, 0] [[0, 0]]).fr_arr.length :=
  claim_C6 [1/10] (1/2) 0 1 false [[0]] ⟨[1, 0], [[0, 0]]⟩
    (by norm_num) (by norm_num) (by decide)

/-- Claim C10: every entry of the unsmoothed real rate signal and of every
unsmoothed jitter replicate is `0` or `1`: the fancy-index increment adds a
single `1` per distinct bin index even when several spikes share a bin. -/
theorem claim_C10 (spikes : List ℚ) (bin st sp : ℚ) (tj : Bool)
    (offs : List (List ℚ)) (res : FRResult)
    (h : get_firing_rate spikes bin st sp tj offs = some res) :
    (∀ x ∈ res.fr_arr, x = 0 ∨ x = 1) ∧
      ∀ row ∈ res.jitter_arr, ∀ x ∈ row, x = 0 ∨ x = 1 := by
  cases tj with
  | false =>
    obtain ⟨hf, hj⟩ := get_firing_rate_false_inv h
    refine ⟨fancyIncrementZeros_mem hf, ?_⟩
    intro row hrow x hx
    rw [hj] at hrow
    rw [List.eq_of_mem_replicate hrow] at hx
    exact Or.inl (List.eq_of_mem_replicate hx)
  | true =>
    cases offs with
    | nil =>
      unfold get_firing_rate at h
      simp only [if_true] at h
      obtain rfl := (Option.some_injective _ h).symm
      refine ⟨fun x hx => Or.inl (List.eq_of_mem_replicate hx), ?_⟩
      intro row hrow
      exact absurd hrow (List.not_mem_nil row)
    | cons o rest =>
      obtain ⟨hf, hj⟩ := get_firing_rate_true_inv h
      refine ⟨fancyIncrementZeros_mem hf, ?_⟩
      intro row hrow
      obtain ⟨os, hos⟩ := jitterRows_some hj row hrow
      exact (jitterRow_shape hos).2

/-- Witness for C10 at a concrete input with two spikes in one bin. -/
theorem claim_C10_witness :
    (∀ x ∈ (FRResult.mk [1, 0] [[0, 0]]).fr_arr, x = 0 ∨ x = 1) ∧
      ∀ row ∈ (FRResult.mk [1, 0] [[0, 0]]).jitter_arr,
        ∀ x ∈ row, x = 0 ∨ x = 1 :=
  claim_C10 [1/10, 3/20] (1/2) 0 1 false [[0, 0]] ⟨[1, 0], [[0, 0]]⟩
    (by decide)

/-- Claim C1 counterexample: two distinct in-window spikes whose rounded
bin indices coincide and are in range, yet the entries of the returned
rate signal sum to `1`, not to the spike count `2`. -/
theorem claim_C1_counterexample :
    ((0 : ℚ) ≤ 1/10 ∧ (1/10 : ℚ) ≤ 1) ∧
      ((0 : ℚ) ≤ 3/20 ∧ (3/20 : ℚ) ≤ 1) ∧
      (0 ≤ binIdx (1/2) (1/10) ∧
        binIdx (1/2) (1/10) < (numBins 0 1 (1/2) : ℤ)) ∧
      (0 ≤ binIdx (1/2) (3/20) ∧
        binIdx (1/2) (3/20) < (numBins 0 1 (1/2) : ℤ)) ∧
      get_firing_rate [1/10, 3/20] (1/2) 0 1 false [[0, 0]]
        = some ⟨[1, 0], [[0, 0]]⟩ ∧
      (FRResult.mk [1, 0] [[0, 0]]).fr_arr.sum ≠
        (([(1 : ℚ)/10, 3/20].filter fun t => decide (0 ≤ t ∧ t ≤ 1)).length : ℚ) := by
  decide

/-- Claim C1 as amended: with jitter disabled, when every spike's rounded
bin index is in `[0, numBins)` the entries of the returned rate signal sum
to the number of **distinct** rounded bin indices of the input spikes
(spikes sharing a bin are collapsed by the fancy-index increment, and the
binner itself never filters spikes against the window). -/
theorem claim_C1 (spikes : List ℚ) (bin st sp : ℚ)
    (offs : List (List ℚ)) (res : FRResult)
    (h : get_firing_rate spikes bin st sp false offs = some res)
    (hin : ∀ i ∈ spikes.map (binIdx bin),
      0 ≤ i ∧ i < (numBins st sp bin : ℤ)) :
    res.fr_arr.sum =
      (((spikes.map (binIdx bin)).map Int.toNat).dedup.length : ℚ) := by
  obtain ⟨hf, -⟩ := get_firing_rate_false_inv h
  obtain ⟨ws, hw, hfr⟩ := fancyIncrementZeros_some hf
  rw [wrapAll_of_inRange _ _ hin] at hw
  obtain rfl := (Option.some_injective _ hw).symm
  rw [hfr, sum_map_ite (fun j => j ∈ (spikes.map (binIdx bin)).map Int.toNat)]
  rw [length_filter_range_mem]
  intro x hx
  obtain ⟨i, hi, rfl⟩ := List.mem_map.1 hx
  have := hin i hi
  omega

/-- Witness for the amended C1 at the counterexample input. -/
theorem claim_C1_witness :
    (FRResult.mk [1, 0] [[0, 0]]).fr_arr.sum =
      ((([(1 : ℚ)/10, 3/20].map (binIdx (1/2))).map Int.toNat).dedup.length : ℚ) :=
  claim_C1 [1/10, 3/20] (1/2) 0 1 [[0, 0]] ⟨[1, 0], [[0, 0]]⟩
    (by decide) (by decide)

/-- Claim C7 counterexample: with `to_jitter = false` and `shuffle_n = 1`,
`get_firing_rate` still returns a (one-row, all-zero) jitter ensemble:
the ensemble is allocated and returned, not omitted. -/
theorem claim_C7_counterexample :
    get_firing_rate [1/10] (1/2) 0 1 false [[0]]
      = some ⟨[1, 0], [[0, 0]]⟩ ∧
      (FRResult.mk [1, 0] [[0, 0]]).jitter_arr ≠ [] := by
  decide

/-- Claim C7 as amended: with jitter disabled only the real rate signal is
populated, but the `shuffle_n × numBins` all-zero jitter array is still
allocated and returned as the second component. -/
theorem claim_C7 (spikes : List ℚ) (bin st sp : ℚ)
    (offs : List (List ℚ)) (res : FRResult)
    (h : get_firing_rate spikes bin st sp false offs = some res) :
    res.jitter_arr =
      List.replicate offs.length (List.replicate (numBins st sp bin) 0) :=
  (get_firing_rate_false_inv h).2

/-- Witness for the amended C7 at a concrete input. -/
theorem claim_C7_witness :
    (FRResult.mk [1, 0] [[0, 0]]).jitter_arr =
      List.replicate 1 (List.replicate (numBins 0 1 (1/2)) 0) :=
  claim_C7 [1/10] (1/2) 0 1 [[0]] ⟨[1, 0], [[0, 0]]⟩ (by decide)

/-- Claim C8: a spike inside the window whose rounded bin index reaches the
signal length (here `round(0.9/0.5) = 2 = numBins`) makes the binning fail
with an out-of-bounds indexing error (`none`), rather than being clipped
or dropped. -/
theorem claim_C8 :
    ((0 : ℚ) ≤ 9/10 ∧ (9/10 : ℚ) ≤ 1) ∧
      (numBins 0 1 (1/2) : ℤ) ≤ binIdx (1/2) (9/10) ∧
      get_firing_rate [9/10] (1/2) 0 1 false [[0]] = none := by
  decide

/-- Claim C9: with jitter enabled, a spike near `windowStart` perturbed
(within `±jitter_size = ±1/4`) below `-bin_size/2` gets the negative bin
index `-1`; the `≤ tracking_stop` filter does not drop it, and the
increment lands on the **last** bin of the replicate row while the real
signal has the spike in bin `0`. -/
theorem claim_C9 :
    (-(1/4 : ℚ) ≤ -3/16 ∧ (-3/16 : ℚ) ≤ 1/4) ∧
      ((0 : ℚ) ≤ 1/32 ∧ (1/32 : ℚ) ≤ 1) ∧
      binIdx (1/4) (1/32 + -3/16) = -1 ∧
      (1/32 + (-3/16 : ℚ)) ≤ 1 ∧
      get_firing_rate [1/32] (1/4) 0 1 true [[-3/16]]
        = some ⟨[1, 0, 0, 0], [[0, 0, 0, 1]]⟩ := by
  decide

/-- Zipping two images of the same list pairs them pointwise. -/
theorem zip_map_pair {α β γ : Type} (f : α → β) (g : α → γ) :
    ∀ l : List α, (l.map f).zip (l.map g) = l.map fun a => (f a, g a)
  | [] => rfl
  | a :: l => by
    rw [List.map_cons, List.map_cons, List.zip_cons_cons,
      zip_map_pair f g l, List.map_cons]

/-- The driver's correlation output is one `lagEntry` per lag. -/
theorem noise_corr_data_eq (fr1 fr2 : List ℚ) (b : ℕ) :
    noise_corr_data fr1 fr2 b =
      (allLags b).map fun ℓ => lagEntry (lagSlice fr1 b ℓ) (centerSlice fr2 b) := by
  unfold noise_corr_data cross_correlate bigX rowMeans
  rw [List.map_map,
    zip_map_pair (lagSlice fr1 b) (listMean ∘ lagSlice fr1 b) (allLags b),
    List.map_map]
  rfl

/-- The lag list holds `2*bin_num + 1` lags. -/
theorem allLags_length (b : ℕ) : (allLags b).length = 2 * b + 1 := by
  unfold allLags
  rw [List.length_map, List.length_range]

/-- Entry `i` of the correlation output is the lag-`(i - bin_num)`
Pearson data. -/
theorem noise_corr_data_getD (fr1 fr2 : List ℚ) (b i : ℕ) (h : i < 2 * b + 1) :
    (noise_corr_data fr1 fr2 b).getD i none =
      lagEntry (lagSlice fr1 b ((i : ℤ) - b)) (centerSlice fr2 b) := by
  rw [noise_corr_data_eq]
  unfold allLags
  rw [List.map_map, List.getD_eq_getElem?_getD, List.getElem?_map,
    List.getElem?_range h]
  rfl

/-- Lag `0` slices exactly the center region. -/
theorem lagSlice_zero (fr : List ℚ) (b : ℕ) :
    lagSlice fr b 0 = centerSlice fr b := by
  unfold lagSlice centerSlice
  norm_num

/-- Centering a constant list gives all zeros. -/
theorem centered_const_zero {l : List ℚ} (h : constantL l) :
    ∀ v ∈ l.map fun v => v - listMean l, v = 0 := by
  intro v hv
  obtain ⟨a, ha, rfl⟩ := List.mem_map.1 hv
  have hsum : l.sum = l.length • a :=
    List.sum_eq_card_nsmul l a fun x hx => h x hx a ha
  have hlen : (l.length : ℚ) ≠ 0 := by
    have := List.length_pos.2 (List.ne_nil_of_mem ha)
    positivity
  have hm : listMean l = a := by
    unfold listMean
    rw [hsum, nsmul_eq_mul]
    field_simp
  rw [hm]
  ring

/-- A dot product with an all-zero left factor vanishes. -/
theorem dotL_zero_left : ∀ {u w : List ℚ}, (∀ v ∈ u, v = 0) → dotL u w = 0
  | [], _, _ => rfl
  | _ :: _, [], _ => rfl
  | u :: us, w :: ws, h => by
    have h0 := h u (List.mem_cons_self u us)
    have hrec : dotL us ws = 0 :=
      dotL_zero_left fun v hv => h v (List.mem_cons_of_mem u hv)
    unfold dotL at hrec ⊢
    rw [List.zipWith_cons_cons, List.sum_cons, hrec, h0]
    ring

/-- The dot product is symmetric. -/
theorem dotL_comm (u v : List ℚ) : dotL u v = dotL v u := by
  unfold dotL
  rw [List.zipWith_comm_of_comm _ mul_comm]

/-- A constant lagged slice zeroes the squared Pearson denominator. -/
theorem pearsonDenSq_zero_left {x : List ℚ} (h : constantL x) (y : List ℚ) :
    pearsonDenSq x y = 0 := by
  unfold pearsonDenSq
  rw [dotL_zero_left (centered_const_zero h), zero_mul]

/-- A constant center slice zeroes the squared Pearson denominator. -/
theorem pearsonDenSq_zero_right (x : List ℚ) {y : List ℚ} (h : constantL y) :
    pearsonDenSq x y = 0 := by
  unfold pearsonDenSq
  rw [dotL_zero_left (centered_const_zero h), mul_zero]

/-- A list of nonnegative rationals with one positive member has positive
sum. -/
theorem sum_pos_of_mem :
    ∀ {l : List ℚ}, (∀ x ∈ l, 0 ≤ x) → (∃ x ∈ l, 0 < x) → 0 < l.sum
  | [], _, hx => by
    obtain ⟨x, hx0, -⟩ := hx
    exact absurd hx0 (List.not_mem_nil x)
  | a :: l, h0, hx => by
    rw [List.sum_cons]
    obtain ⟨x, hx0, hxpos⟩ := hx
    rcases List.mem_cons.1 hx0 with rfl | hmem
    · have : (0 : ℚ) ≤ l.sum :=
        List.sum_nonneg fun v hv => h0 v (List.mem_cons_of_mem x hv)
      linarith
    · have hrec : 0 < l.sum :=
        sum_pos_of_mem (fun v hv => h0 v (List.mem_cons_of_mem a hv))
          ⟨x, hmem, hxpos⟩
      have := h0 a (List.mem_cons_self a l)
      linarith

/-- The centered self dot product of a non-constant list is positive. -/
theorem dotL_self_pos {l : List ℚ} (h : ¬ constantL l) :
    0 < dotL (l.map fun v => v - listMean l) (l.map fun v => v - listMean l) := by
  unfold constantL at h
  push_neg at h
  obtain ⟨a, ha, b, hb, hab⟩ := h
  have hex : ∃ c ∈ l, c ≠ listMean l := by
    by_cases hA : a = listMean l
    · exact ⟨b, hb, fun hB => hab (hA.trans hB.symm)⟩
    · exact ⟨a, ha, hA⟩
  obtain ⟨c, hc, hcm⟩ := hex
  unfold dotL
  rw [List.zipWith_same, List.map_map]
  apply sum_pos_of_mem
  · intro x hx
    obtain ⟨v, -, rfl⟩ := List.mem_map.1 hx
    have : (0 : ℚ) ≤ (v - listMean l) * (v - listMean l) := mul_self_nonneg _
    simpa using this
  · refine ⟨(c - listMean l) * (c - listMean l), List.mem_map.2 ⟨c, hc, rfl⟩, ?_⟩
    exact mul_self_pos.2 (sub_ne_zero.2 hcm)

/-- Claim C2: if at some lag the lagged slice of A or the center slice of B
is constant, the per-lag squared denominator vanishes and `cross_correlate`
yields the non-numeric sentinel (`none`, modelling NaN) at that lag without
raising (the model is a total function); every lag keeps its own per-lag
Pearson value, so the other lags are unaffected. -/
theorem claim_C2 (A B : List ℚ) (b : ℕ) (ℓ : ℤ)
    (hAB : A.length = B.length) (hlen : 2 * b < A.length)
    (h1 : -(b : ℤ) ≤ ℓ) (h2 : ℓ ≤ b)
    (hconst : constantL (lagSlice A b ℓ) ∨ constantL (centerSlice B b)) :
    (noise_corr_data A B b).getD ((b : ℤ) + ℓ).toNat none = none ∧
      ∀ m : ℤ, -(b : ℤ) ≤ m → m ≤ b →
        (noise_corr_data A B b).getD ((b : ℤ) + m).toNat none =
          lagEntry (lagSlice A b m) (centerSlice B b) := by
  have key : ∀ m : ℤ, -(b : ℤ) ≤ m → m ≤ b →
      (noise_corr_data A B b).getD ((b : ℤ) + m).toNat none =
        lagEntry (lagSlice A b m) (centerSlice B b) := by
    intro m hm1 hm2
    have hi : ((b : ℤ) + m).toNat < 2 * b + 1 := by omega
    rw [noise_corr_data_getD A B b _ hi]
    have : ((((b : ℤ) + m).toNat : ℤ) - b) = m := by omega
    rw [this]
  refine ⟨?_, key⟩
  rw [key ℓ h1 h2]
  unfold lagEntry
  rcases hconst with hcl | hcr
  · rw [if_pos (pearsonDenSq_zero_left hcl _)]
  · rw [if_pos (pearsonDenSq_zero_right _ hcr)]

/-- Witness for C2: a constant lagged slice produces the sentinel at its
lag. -/
theorem claim_C2_witness :
    (([(5 : ℚ), 5, 5, 9].length = [(0 : ℚ), 1, 2, 3].length) ∧
        2 * 1 < [(5 : ℚ), 5, 5, 9].length ∧
        constantL (lagSlice [(5 : ℚ), 5, 5, 9] 1 (-1))) ∧
      (noise_corr_data [(5 : ℚ), 5, 5, 9] [(0 : ℚ), 1, 2, 3] 1).getD
          ((1 : ℤ) + -1).toNat none = none ∧
      ∀ m : ℤ, -(1 : ℤ) ≤ m → m ≤ 1 →
        (noise_corr_data [(5 : ℚ), 5, 5, 9] [(0 : ℚ), 1, 2, 3] 1).getD
            ((1 : ℤ) + m).toNat none =
          lagEntry (lagSlice [(5 : ℚ), 5, 5, 9] 1 m)
            (centerSlice [(0 : ℚ), 1, 2, 3] 1) :=
  ⟨⟨by decide, by decide, by decide⟩,
    claim_C2 [(5 : ℚ), 5, 5, 9] [(0 : ℚ), 1, 2, 3] 1 (-1)
      (by decide) (by decide) (by decide) (by decide) (Or.inl (by decide))⟩

/-- Claim C3: cross-correlating a signal with itself at lag `0` (entry
`bin_num` of the correlogram), when the center slice is not constant,
yields numerator `S` and squared denominator `S * S` with `S > 0`, so the
Pearson coefficient `S / sqrt (S * S)` is exactly `1`. -/
theorem claim_C3 (A : List ℚ) (b : ℕ)
    (hlen : 2 * b < A.length) (hc : ¬ constantL (centerSlice A b)) :
    (noise_corr_data A A b).getD b none
        = some (pearsonNum (centerSlice A b) (centerSlice A b),
            pearsonDenSq (centerSlice A b) (centerSlice A b)) ∧
      ((pearsonNum (centerSlice A b) (centerSlice A b) : ℝ) /
          Real.sqrt ((pearsonDenSq (centerSlice A b) (centerSlice A b) : ℚ) : ℝ)
        = 1) := by
  have hS : 0 < pearsonNum (centerSlice A b) (centerSlice A b) := by
    unfold pearsonNum
    exact dotL_self_pos hc
  have hD : pearsonDenSq (centerSlice A b) (centerSlice A b) =
      pearsonNum (centerSlice A b) (centerSlice A b) *
        pearsonNum (centerSlice A b) (centerSlice A b) := by
    unfold pearsonDenSq pearsonNum
    rfl
  constructor
  · have hb : b < 2 * b + 1 := by omega
    rw [noise_corr_data_getD A A b b hb]
    have hzero : ((b : ℤ) - b) = 0 := by omega
    rw [hzero, lagSlice_zero]
    unfold lagEntry
    rw [if_neg (by rw [hD]; exact mul_ne_zero (ne_of_gt hS) (ne_of_gt hS))]
  · set S := pearsonNum (centerSlice A b) (centerSlice A b) with hSdef
    have hScast : (0 : ℝ) < (S : ℝ) := by exact_mod_cast hS
    rw [hD]
    push_cast
    rw [Real.sqrt_mul_self hScast.le]
    exact div_self (ne_of_gt hScast)

/-- Witness for C3 at a concrete non-constant signal. -/
theorem claim_C3_witness :
    (2 * 1 < [(0 : ℚ), 0, 1, 0, 0].length ∧
        ¬ constantL (centerSlice [(0 : ℚ), 0, 1, 0, 0] 1)) ∧
      (noise_corr_data [(0 : ℚ), 0, 1, 0, 0] [(0 : ℚ), 0, 1, 0, 0] 1).getD 1 none
          = some (pearsonNum (centerSlice [(0 : ℚ), 0, 1, 0, 0] 1)
              (centerSlice [(0 : ℚ), 0, 1, 0, 0] 1),
            pearsonDenSq (centerSlice [(0 : ℚ), 0, 1, 0, 0] 1)
              (centerSlice [(0 : ℚ), 0, 1, 0, 0] 1)) ∧
        ((pearsonNum (centerSlice [(0 : ℚ), 0, 1, 0, 0] 1)
              (centerSlice [(0 : ℚ), 0, 1, 0, 0] 1) : ℝ) /
            Real.sqrt ((pearsonDenSq (centerSlice [(0 : ℚ), 0, 1, 0, 0] 1)
              (centerSlice [(0 : ℚ), 0, 1, 0, 0] 1) : ℚ) : ℝ) = 1) :=
  ⟨⟨by decide, by decide⟩,
    claim_C3 [(0 : ℚ), 0, 1, 0, 0] 1 (by decide) (by decide)⟩

/-- Claim C4 counterexample: for `A = [9,0,0,1,9]`, `B = [5,0,9,0,7]`,
`bin_num = 1`, the coefficient of A against B at lag `+1` (entry `2`) is
`-21 / sqrt 2628 < 0` while the coefficient of B against A at lag `-1`
(entry `0`) is `(13/3) / sqrt (244/9) > 0`; the two coefficients differ,
refuting the lag-negation symmetry: the center region does not shift with
the lag, so the two computations pair different windows. -/
theorem claim_C4_counterexample :
    (noise_corr_data [(9 : ℚ), 0, 0, 1, 9] [(5 : ℚ), 0, 9, 0, 7] 1).getD 2 none
        = some (-21, 2628) ∧
      (noise_corr_data [(5 : ℚ), 0, 9, 0, 7] [(9 : ℚ), 0, 0, 1, 9] 1).getD 0 none
        = some (13/3, 244/9) ∧
      ((-21 : ℝ) / Real.sqrt 2628 ≠ (13/3 : ℝ) / Real.sqrt (244/9)) := by
  refine ⟨by decide, by decide, ?_⟩
  have h1 : (0 : ℝ) < Real.sqrt 2628 := Real.sqrt_pos.2 (by norm_num)
  have h2 : (0 : ℝ) < Real.sqrt (244/9) := Real.sqrt_pos.2 (by norm_num)
  have hA : (-21 : ℝ) / Real.sqrt 2628 < 0 :=
    div_neg_of_neg_of_pos (by norm_num) h1
  have hB : (0 : ℝ) < (13/3 : ℝ) / Real.sqrt (244/9) :=
    div_pos (by norm_num) h2
  exact ne_of_lt (hA.trans hB)

/-- Claim C4 as amended: the Pearson computation at a fixed lag is
symmetric in its two slice arguments — exchanging the lagged A-slice and
the centered B-slice inside the formula leaves numerator, squared
denominator, and hence the per-lag result unchanged.  (The original
lag-negation form `r_AB(ℓ) = r_BA(-ℓ)` is false because the center region
stays fixed while the lag window moves.) -/
theorem claim_C4 (A B : List ℚ) (b : ℕ) (ℓ : ℤ) :
    lagEntry (lagSlice A b ℓ) (centerSlice B b)
      = lagEntry (centerSlice B b) (lagSlice A b ℓ) := by
  have h1 : pearsonNum (lagSlice A b ℓ) (centerSlice B b)
      = pearsonNum (centerSlice B b) (lagSlice A b ℓ) := by
    unfold pearsonNum
    exact dotL_comm _ _
  have h2 : pearsonDenSq (lagSlice A b ℓ) (centerSlice B b)
      = pearsonDenSq (centerSlice B b) (lagSlice A b ℓ) := by
    unfold pearsonDenSq
    exact mul_comm _ _
  unfold lagEntry
  rw [h1, h2]

/-- Claim C5: the correlation procedure returns exactly `2*bin_num + 1`
coefficients, one per lag, for any pair of equal-length signals longer
than `2*bin_num`. -/
theorem claim_C5 (fr1 fr2 : List ℚ) (b : ℕ)
    (hAB : fr1.length = fr2.length) (hlen : 2 * b < fr1.length) :
    (noise_corr_data fr1 fr2 b).length = 2 * b + 1 := by
  rw [noise_corr_data_eq, List.length_map, allLags_length]

/-- Witness for C5 at a concrete input. -/
theorem claim_C5_witness :
    ([(0 : ℚ), 1, 2, 3, 4].length = [(1 : ℚ), 0, 2, 0, 3].length ∧
        2 * 1 < [(0 : ℚ), 1, 2, 3, 4].length) ∧
      (noise_corr_data [(0 : ℚ), 1, 2, 3, 4] [(1 : ℚ), 0, 2, 0, 3] 1).length
        = 2 * 1 + 1 :=
  ⟨⟨by decide, by decide⟩,
    claim_C5 [(0 : ℚ), 1, 2, 3, 4] [(1 : ℚ), 0, 2, 0, 3] 1
      (by decide) (by decide)⟩

end Lemmas

end NoiseCorrelations
